import Mathlib

/-!
Shallow embedding of `src/pio_audio.rs` (RP2040 PIO I2S tone generator).

Modelling conventions:
* `u32` values are `ℕ` kept below `2 ^ 32` (wrapping is written `% 2 ^ 32`
  where the Rust code can wrap);
* `i32` values are `ℤ` in `[-2 ^ 31, 2 ^ 31)`; reinterpretation as `u32`
  is `Int.emod` by `2 ^ 32`;
* `f32` arithmetic is idealized as exact rational arithmetic (`ℚ`); the
  Rust `as` casts from floats to integers truncate toward zero and
  saturate, which is modelled explicitly;
* the RP2040 is little-endian, so byte `i` of an `i32` read through a
  byte pointer is `(bits >>> (8 * i)) % 256` of its `u32` reinterpretation.
-/

/-- Source constant `BASE_CLOCK: f32 = 125E06` (line 22). -/
def BASE_CLOCK : ℚ := 125e6

/-- Source constant `TABLE_SIZE: usize = 1920` (line 23). -/
def TABLE_SIZE : ℕ := 1920

/-- Source constant `AMPLITUDE: i32 = 0x6FFFFF` (line 24). -/
def AMPLITUDE : ℤ := 0x6FFFFF

/-- Source constant `FREQUENCY: f32 = 300.0` (line 25). -/
def FREQUENCY : ℚ := 300

/-- Source constant `SAMPLE_RATE: f32 = 192_000.0` (line 26). -/
def SAMPLE_RATE : ℚ := 192000

/-- Source constant `PI: f32 = 3.141592653589732385` (line 27), taken at the
exact value of the decimal literal. -/
def PI : ℚ := 3.141592653589732385

/-- Truncation toward zero of a rational, the rounding used by Rust `as`
casts from a float to an integer (`Int.div` is T-division). -/
def ratTrunc (q : ℚ) : ℤ := if 0 ≤ q then ⌊q⌋ else -⌊-q⌋

/-- Rust `as i32` on an `f32`: truncate toward zero and saturate to the
`i32` range. -/
def f32_as_i32 (q : ℚ) : ℤ := max (-(2 ^ 31)) (min (2 ^ 31 - 1) (ratTrunc q))

/-- Rust `as u16` on an `f32`: truncate toward zero and saturate to
`[0, 65535]`. -/
def f32_as_u16 (q : ℚ) : ℕ := (min 65535 (max 0 (ratTrunc q))).toNat

/-- Rust `as u8` on an `f32`: truncate toward zero and saturate to
`[0, 255]`. -/
def f32_as_u8 (q : ℚ) : ℕ := (min 255 (max 0 (ratTrunc q))).toNat

/-- The `split_float!` macro (lines 32-38): `whole = value as u16`,
`frac = ((value - whole as f32) * 256.0) as u8`.  No validation or error
path of any kind is present. -/
def split_float (value : ℚ) : ℕ × ℕ :=
  let whole := f32_as_u16 value
  let frac := f32_as_u8 ((value - (whole : ℚ)) * 256)
  (whole, frac)

/-- Reinterpretation of an `i32` two's-complement bit pattern as a `u32`
(`ℕ` below `2 ^ 32`). -/
def u32ofI32 (num : ℤ) : ℕ := (num.emod (2 ^ 32)).toNat

/-- Byte `i` of the in-memory representation of `num: i32` on the
little-endian RP2040, as read through `bytes_ptr.offset(i)` in
`cast_to_u32_as_i32` (line 67). -/
def leByte (num : ℤ) (i : ℕ) : ℕ := (u32ofI32 num >>> (8 * i)) % 256

/-- `cast_to_u32_as_i32` (lines 62-97): reassemble the bytes of `num` into a
`u32` accumulator; in 24-bit mode the fourth byte is split into its low
7 bits (OR-ed into bits 24-30) and its top bit (OR-ed into bit 31). -/
def cast_to_u32_as_i32 (num : ℤ) (is_24bit : Bool) : ℕ :=
  let byte_count := if is_24bit then 3 else 4
  let temp := (List.range byte_count).foldl
    (fun acc i => acc ||| (leByte num i <<< (8 * i))) 0
  if is_24bit then
    let cur_byte := leByte num 3
    let msb_removed_byte := cur_byte &&& 0x7F
    let temp2 := temp ||| (msb_removed_byte <<< 24)
    if cur_byte &&& 0x80 = 0x80 then temp2 ||| 0x80000000 else temp2
  else temp

/-- The `while num != 0` loop of `bit_reverse` (lines 106-111); `rev_num` is
a `u32` (wraps at `2 ^ 32`), `bits` is an `i32` counter that the loop
decrements from 31.  The loop halves `num` each iteration, so for
`num < 2 ^ fuel` the fuel bound never fires and the recursion is exactly
the source loop; it is structural fuel only. -/
def bitRevLoop : ℕ → ℕ → ℕ → ℤ → ℕ × ℤ
  | 0, _, rev_num, bits => (rev_num, bits)
  | fuel + 1, num, rev_num, bits =>
    if num = 0 then (rev_num, bits)
    else bitRevLoop fuel (num >>> 1) (((rev_num ||| (num &&& 1)) <<< 1) % 2 ^ 32) (bits - 1)

/-- `bit_reverse` (lines 102-115) under release-build semantics: the final
`rev_num <<= bits` masks the (possibly negative) `i32` shift amount to its
low 5 bits, which is `bits.emod 32`. -/
def bit_reverse (num : ℕ) : ℕ :=
  let p := bitRevLoop 32 (num % 2 ^ 32) 0 31
  (p.1 <<< (p.2.emod 32).toNat) % 2 ^ 32

/-- `bit_reverse` under debug-build semantics: the final `rev_num <<= bits`
panics (overflowing shift) unless `0 ≤ bits < 32`; a panic is `none`. -/
def bit_reverse_checked (num : ℕ) : Option ℕ :=
  let p := bitRevLoop 32 (num % 2 ^ 32) 0 31
  if 0 ≤ p.2 ∧ p.2 < 32 then some ((p.1 <<< p.2.toNat) % 2 ^ 32) else none

/-- `let omega = 2.0 * PI * FREQUENCY / SAMPLE_RATE` in `generate_sine_wave`
(line 125). -/
def omega0 : ℚ := 2 * PI * FREQUENCY / SAMPLE_RATE

/-- The inner block of `generate_sine_wave` (lines 129-135), verbatim:
`out_temp` starts at 0 and accumulates `angle`, `angle_temp / 6` and
`angle_temp * angle * angle / 120`, where `angle_temp` is initialized to 0
and then assigned `angle_temp * angle * angle`. -/
def approx_sine (angle : ℚ) : ℚ :=
  let out_temp : ℚ := 0
  let angle_temp : ℚ := 0
  let out_temp := out_temp + angle
  let angle_temp := angle_temp * angle * angle
  let out_temp := out_temp + angle_temp / 6
  let out_temp := out_temp + angle_temp * angle * angle / 120
  out_temp

/-- The signed sample of `generate_sine_wave` at index `i` (lines 127-136):
`(AMPLITUDE as f32 * block) as i32` with `angle = omega * i`. -/
def sineSample (i : ℕ) : ℤ :=
  f32_as_i32 ((AMPLITUDE : ℚ) * approx_sine (omega0 * (i : ℚ)))

/-- The table produced by `generate_sine_wave` (lines 124-140):
`samples[i] = bit_reverse(cast_to_u32_as_i32(sample, true))`. -/
def generate_sine_wave : List ℕ :=
  (List.range TABLE_SIZE).map (fun i => bit_reverse (cast_to_u32_as_i32 (sineSample i) true))

/-- The composed sample encoding used at line 138: byte reassembly with
sign handling, then the 32-bit bit-order reversal. -/
def encodeSample (sample : ℤ) (is_24bit : Bool) : ℕ :=
  bit_reverse (cast_to_u32_as_i32 sample is_24bit)

/-- The `SampleFrequency` enum (lines 50-57). -/
inductive SampleFrequency
  | Freq32khz
  | Freq44_1khz
  | Freq48khz
  | Freq96khz
  | Freq192khz
  | Freq384khz
deriving DecidableEq, Fintype

/-- The `(lrck_freq, bck_freq)` pair bound to each variant by the `match`
at lines 209-218 of `main`. -/
def freqPair : SampleFrequency → ℚ × ℚ
  | .Freq32khz => (32000, 1.024e6)
  | .Freq44_1khz => (44100, 1.4112e6)
  | .Freq48khz => (48000, 1.536e6)
  | .Freq96khz => (96000, 3.072e6)
  | .Freq192khz => (192000, 6.144e6)
  | .Freq384khz => (384000, 12.288e6)

/-- `let LRCK_PIO_CYCLES_PER = 2.0f32` (line 225): base-clock cycles per
output transition of the word-clock program. -/
def LRCK_PIO_CYCLES_PER : ℚ := 2

/-- `let CK_PIO_CYCLES_PER = 4.0f32` (line 226): base-clock cycles per
output transition of the data/bit-clock program. -/
def CK_PIO_CYCLES_PER : ℚ := 4

/-- `let lrck_div = (BASE_CLOCK / LRCK_PIO_CYCLES_PER) / lrck_freq`
(line 227), as a function of the word-clock frequency. -/
def lrck_div (lrck_freq : ℚ) : ℚ := (BASE_CLOCK / LRCK_PIO_CYCLES_PER) / lrck_freq

/-- `let bck_data_div = (BASE_CLOCK / CK_PIO_CYCLES_PER) / bck_freq`
(line 228), as a function of the bit-clock frequency. -/
def bck_data_div (bck_freq : ℚ) : ℚ := (BASE_CLOCK / CK_PIO_CYCLES_PER) / bck_freq

/-- `let target_lrck_freq = SampleFrequency::Freq192khz` (line 202). -/
def target_lrck_freq : SampleFrequency := SampleFrequency.Freq192khz

/-- The word-clock divisor actually configured in `main` (lines 227, 232). -/
def lrck_div_val : ℚ := lrck_div (freqPair target_lrck_freq).1

/-- The data/bit-clock divisor actually configured in `main`
(lines 228, 231). -/
def bck_data_div_val : ℚ := bck_data_div (freqPair target_lrck_freq).2

/-- Fixed-point approximation error of a `split_float` result against the
real divisor value: `|whole + frac / 256 - divisor|`. -/
def divisorError (d : ℚ) : ℚ :=
  |((split_float d).1 : ℚ) + ((split_float d).2 : ℚ) / 256 - d|

/-- Observable state of the two PIO state machines during startup. -/
structure PioSmState where
  sm0_configured : Bool
  sm1_configured : Bool
  sm0_running : Bool
  sm1_running : Bool
deriving DecidableEq

/-- The startup-relevant operations `main` performs on the two state
machines, in source order: build/configure `sm0` with its divisor
(lines 238-247), build/configure `sm1` with its divisor (lines 249-255),
and the single joint start `sm0.with(sm1).sync().start()` (line 280),
which sets both machines running in one control operation. -/
inductive StartupOp
  | configSm0
  | configSm1
  | jointStart
deriving DecidableEq

/-- Effect of each startup operation on the state-machine state. -/
def applyOp (s : PioSmState) : StartupOp → PioSmState
  | .configSm0 => { s with sm0_configured := true }
  | .configSm1 => { s with sm1_configured := true }
  | .jointStart => { s with sm0_running := true, sm1_running := true }

/-- Before startup neither machine is configured or running. -/
def initPioState : PioSmState := ⟨false, false, false, false⟩

/-- The sequence of state-machine operations in `main`, in program order. -/
def startupOps : List StartupOp := [.configSm0, .configSm1, .jointStart]

/-- Every state reached during the startup sequence (including the initial
and final states). -/
def startupTrace : List PioSmState := startupOps.scanl applyOp initPioState

/-- Number of samples written to the TX FIFO after `n` iterations of the
streaming loop body (lines 284-290), given the FIFO-full schedule `sched`:
a `while tx0.is_full() {}` poll that sees full makes no progress, otherwise
one sample is written.  The write index never resets: the `for` loop over
`samples.iter()` inside `loop` re-reads the table cyclically. -/
def streamIdx (sched : ℕ → Bool) : ℕ → ℕ
  | 0 => 0
  | n + 1 => streamIdx sched n + (if sched n then 0 else 1)

/-- The list of words written to the TX FIFO during the first `n` iterations
of the streaming loop, in write order. -/
def streamWrites (table : List ℕ) (sched : ℕ → Bool) : ℕ → List ℕ
  | 0 => []
  | n + 1 =>
    streamWrites table sched n ++
      (if sched n then []
       else [table.getD (streamIdx sched n % table.length) 0])

/-! Helper lemmas shared by the claim theorems. -/

/-- OR-ing a value below `2 ^ k` with a `k`-shifted value is addition: the
two operands occupy disjoint bit ranges. -/
theorem lor_shift_eq_add {a : ℕ} (b k : ℕ) (h : a < 2 ^ k) :
    a ||| (b <<< k) = a + b * 2 ^ k := by
  rw [Nat.shiftLeft_eq, Nat.or_comm, mul_comm b (2 ^ k), ← Nat.mul_add_lt_is_or h,
    Nat.add_comm, mul_comm]

/-- Variant of `lor_shift_eq_add` with the power given as a literal. -/
theorem lor_shift_eq_add_of_eq {a b k m : ℕ} (hm : 2 ^ k = m) (h : a < m) :
    a ||| (b <<< k) = a + b * m := by
  subst hm
  exact lor_shift_eq_add b k h

/-- The `u32` reinterpretation of any integer is below `2 ^ 32`. -/
theorem u32ofI32_lt (num : ℤ) : u32ofI32 num < 4294967296 := by
  unfold u32ofI32
  have h1 : 0 ≤ num.emod (2 ^ 32) := Int.emod_nonneg num (by norm_num)
  have h2 : num.emod (2 ^ 32) < 2 ^ 32 := Int.emod_lt_of_pos num (by norm_num)
  omega

/-- Evaluation rule for `ratTrunc` on a nonnegative rational. -/
theorem ratTrunc_of_bounds {q : ℚ} {n : ℤ} (h0 : 0 ≤ q) (h1 : (n : ℚ) ≤ q)
    (h2 : q < n + 1) : ratTrunc q = n := by
  unfold ratTrunc
  rw [if_pos h0]
  exact Int.floor_eq_iff.mpr ⟨h1, h2⟩

/-- Evaluation rule for the `as u16` cast on an in-range nonnegative value. -/
theorem f32_as_u16_of_bounds {d : ℚ} {w : ℕ} (h0 : 0 ≤ d) (hw : w ≤ 65535)
    (h1 : (w : ℚ) ≤ d) (h2 : d < w + 1) : f32_as_u16 d = w := by
  have hwt : ratTrunc d = (w : ℤ) :=
    ratTrunc_of_bounds h0 (by exact_mod_cast h1) (by exact_mod_cast h2)
  unfold f32_as_u16
  rw [hwt]
  omega

/-- Evaluation rule for the `as u8` cast on an in-range nonnegative value. -/
theorem f32_as_u8_of_bounds {d : ℚ} {w : ℕ} (h0 : 0 ≤ d) (hw : w ≤ 255)
    (h1 : (w : ℚ) ≤ d) (h2 : d < w + 1) : f32_as_u8 d = w := by
  have hwt : ratTrunc d = (w : ℤ) :=
    ratTrunc_of_bounds h0 (by exact_mod_cast h1) (by exact_mod_cast h2)
  unfold f32_as_u8
  rw [hwt]
  omega

/-- Evaluation rule for `split_float` from bounds on each component. -/
theorem split_float_eq {d : ℚ} {w f : ℕ} (hw65535 : w ≤ 65535) (hf255 : f ≤ 255)
    (h1 : (w : ℚ) ≤ d) (h2 : d < w + 1)
    (h3 : (f : ℚ) ≤ (d - w) * 256) (h4 : (d - w) * 256 < f + 1) :
    split_float d = (w, f) := by
  have h0 : 0 ≤ d := le_trans (by positivity) h1
  have hfw : f32_as_u16 d = w := f32_as_u16_of_bounds h0 hw65535 h1 h2
  have hr0 : 0 ≤ (d - (w : ℚ)) * 256 := le_trans (by positivity) h3
  have hff : f32_as_u8 ((d - w) * 256) = f := f32_as_u8_of_bounds hr0 hf255 h3 h4
  simp only [split_float, hfw, hff]

/-- Generic fixed-point accuracy of `split_float`: for any real divisor in
the representable range `[0, 65536)` the truncated `(whole, frac)` pair is
within `1/256` of the exact value. -/
theorem divisorError_lt {d : ℚ} (h0 : 0 ≤ d) (h1 : d < 65536) :
    divisorError d < 1 / 256 := by
  set w : ℤ := ⌊d⌋ with hwdef
  have hw0 : 0 ≤ w := Int.floor_nonneg.mpr h0
  have hwle : (w : ℚ) ≤ d := Int.floor_le d
  have hwlt : d < w + 1 := Int.lt_floor_add_one d
  have hw65536 : w < 65536 := by exact_mod_cast lt_of_le_of_lt hwle h1
  have hfw : f32_as_u16 d = w.toNat := by
    unfold f32_as_u16 ratTrunc
    rw [if_pos h0, ← hwdef]
    omega
  have hcast : ((w.toNat : ℕ) : ℚ) = (w : ℚ) := by exact_mod_cast Int.toNat_of_nonneg hw0
  set r : ℚ := (d - (w.toNat : ℚ)) * 256 with hrdef
  have hr : r = (d - (w : ℚ)) * 256 := by rw [hrdef, hcast]
  have hr0 : 0 ≤ r := by rw [hr]; nlinarith
  have hr256 : r < 256 := by rw [hr]; nlinarith
  set f : ℤ := ⌊r⌋ with hfdef
  have hf0 : 0 ≤ f := Int.floor_nonneg.mpr hr0
  have hfle : (f : ℚ) ≤ r := Int.floor_le r
  have hflt : r < f + 1 := Int.lt_floor_add_one r
  have hf256 : f < 256 := by exact_mod_cast lt_of_le_of_lt hfle hr256
  have hff : f32_as_u8 r = f.toNat := by
    unfold f32_as_u8 ratTrunc
    rw [if_pos hr0, ← hfdef]
    omega
  have hcastf : ((f.toNat : ℕ) : ℚ) = (f : ℚ) := by exact_mod_cast Int.toNat_of_nonneg hf0
  have herr : divisorError d = |((w.toNat : ℕ) : ℚ) + ((f.toNat : ℕ) : ℚ) / 256 - d| := by
    simp only [divisorError, split_float, hfw, ← hrdef, hff]
  rw [herr, hcast, hcastf, abs_lt]
  rw [hr] at hfle hflt
  constructor <;> linarith

/-- The inner series block of `generate_sine_wave` collapses to the bare
angle: `angle_temp` is zero throughout. -/
theorem approx_sine_eq_id (angle : ℚ) : approx_sine angle = angle := by
  simp [approx_sine]

/-- Evaluation rule for the `as i32` cast on an in-range nonnegative value. -/
theorem f32_as_i32_of_bounds {q : ℚ} (h0 : 0 ≤ q) (h1 : q ≤ 2147483647) :
    f32_as_i32 q = ⌊q⌋ := by
  unfold f32_as_i32 ratTrunc
  rw [if_pos h0]
  have hf0 : (0 : ℤ) ≤ ⌊q⌋ := Int.floor_nonneg.mpr h0
  have hfle : ⌊q⌋ ≤ 2147483647 := by
    have hq : (⌊q⌋ : ℚ) ≤ 2147483647 := le_trans (Int.floor_le q) h1
    exact_mod_cast hq
  rw [show ((2 : ℤ) ^ 31 : ℤ) = 2147483648 from by norm_num]
  omega

/-- The product of the amplitude and the per-index angle increment is
nonnegative. -/
theorem amplitude_omega_nonneg : (0 : ℚ) ≤ (AMPLITUDE : ℚ) * omega0 := by
  norm_num [AMPLITUDE, omega0, PI, FREQUENCY, SAMPLE_RATE]

/-- For every table index the generated signed sample is the floor of
`AMPLITUDE * omega0 * i`: the series block contributes nothing beyond the
linear term and the saturating cast never saturates on this range. -/
theorem sineSample_eq_floor {i : ℕ} (hi : i ≤ 1919) :
    sineSample i = ⌊(AMPLITUDE : ℚ) * (omega0 * i)⌋ := by
  have hi' : (i : ℚ) ≤ 1919 := by exact_mod_cast hi
  have hc := amplitude_omega_nonneg
  unfold sineSample
  rw [approx_sine_eq_id]
  apply f32_as_i32_of_bounds
  · have hprod : (AMPLITUDE : ℚ) * (omega0 * i) = (AMPLITUDE : ℚ) * omega0 * i := by ring
    rw [hprod]
    positivity
  · have hstep : (AMPLITUDE : ℚ) * (omega0 * i) ≤ (AMPLITUDE : ℚ) * omega0 * 1919 := by
      have hmono := mul_le_mul_of_nonneg_left hi' hc
      linarith [hmono]
    refine le_trans hstep ?_
    norm_num [AMPLITUDE, omega0, PI, FREQUENCY, SAMPLE_RATE]

/-! Claim theorems. -/

/-- C1: the bit-order reversal is not total on its degenerate inputs.
`bit_reverse 0 = 0` and `bit_reverse 1 = 2 ^ 31` hold as claimed, but on the
input with only bit 31 set the loop decrements `bits` to `-1`: the final
shift returns 0 (not bit 0) under release-mode shift masking, and panics in
a debug build (`bit_reverse_checked` yields `none`). -/
theorem c1_bit_reverse_degenerate :
    bit_reverse 0 = 0 ∧ bit_reverse 1 = 2 ^ 31 ∧
    bit_reverse (2 ^ 31) = 0 ∧ bit_reverse (2 ^ 31) ≠ 1 ∧
    bit_reverse_checked (2 ^ 31) = none := by decide

/-- C2: the composed encoding is not injective on the claimed domain and
therefore has no inverse there: the distinct samples `-1` and `-2`, both of
magnitude within `AMPLITUDE`, encode to the same wire word 0 (and the
reversal step panics on them in a debug build). -/
theorem c2_encode_collision :
    encodeSample (-1) true = 0 ∧ encodeSample (-2) true = 0 ∧
    cast_to_u32_as_i32 (-1) true = 0xFFFFFFFF ∧
    cast_to_u32_as_i32 (-2) true = 0xFFFFFFFE ∧
    bit_reverse_checked (cast_to_u32_as_i32 (-1) true) = none ∧
    (-1 : ℤ) ≠ -2 ∧ |(-1 : ℤ)| ≤ AMPLITUDE ∧ |(-2 : ℤ)| ≤ AMPLITUDE := by decide

/-- C3: the synthesizer does not add the cubic and quintic series terms:
`angle_temp` is initialized to 0 and multiplied, so the inner block equals
the bare angle for every input, and at index 1 the produced sample differs
from the claimed `round(amplitude * (angle + angle^3/6 + angle^5/120))`. -/
theorem c3_series_terms_vanish :
    (∀ angle : ℚ, approx_sine angle = angle) ∧
    sineSample 1 = f32_as_i32 ((AMPLITUDE : ℚ) * (omega0 * 1)) ∧
    sineSample 1 ≠
      ⌊(AMPLITUDE : ℚ) *
        (omega0 * 1 + (omega0 * 1) ^ 3 / 6 + (omega0 * 1) ^ 5 / 120) + 1 / 2⌋ := by
  refine ⟨approx_sine_eq_id, by unfold sineSample; rw [approx_sine_eq_id]; norm_num, ?_⟩
  have hfl : sineSample 1 = ⌊(AMPLITUDE : ℚ) * (omega0 * 1)⌋ :=
    sineSample_eq_floor (by norm_num)
  have h2 : sineSample 1 < 72061 := by
    rw [hfl]
    apply Int.floor_lt.mpr
    push_cast
    norm_num [AMPLITUDE, omega0, PI, FREQUENCY, SAMPLE_RATE]
  have h3 : (72062 : ℤ) ≤
      ⌊(AMPLITUDE : ℚ) *
        (omega0 * 1 + (omega0 * 1) ^ 3 / 6 + (omega0 * 1) ^ 5 / 120) + 1 / 2⌋ := by
    apply Int.le_floor.mpr
    push_cast
    norm_num [AMPLITUDE, omega0, PI, FREQUENCY, SAMPLE_RATE]
  omega

/-- C4 counterexample: the generated table violates the amplitude ceiling:
at index 1919 the sample magnitude exceeds `AMPLITUDE` and even the whole
24-bit representable range. -/
theorem c4_amplitude_bound_violated :
    1919 < TABLE_SIZE ∧ AMPLITUDE < |sineSample 1919| ∧
    (2 ^ 23 - 1 : ℤ) < |sineSample 1919| := by
  have hfl := sineSample_eq_floor (i := 1919) (by norm_num)
  have hge : (8388608 : ℤ) ≤ sineSample 1919 := by
    rw [hfl]
    apply Int.le_floor.mpr
    push_cast
    norm_num [AMPLITUDE, omega0, PI, FREQUENCY, SAMPLE_RATE]
  have h0 : 0 ≤ sineSample 1919 := le_trans (by norm_num) hge
  rw [abs_of_nonneg h0]
  refine ⟨by norm_num [TABLE_SIZE], ?_, ?_⟩
  · rw [show (AMPLITUDE : ℤ) = 7340031 from by norm_num [AMPLITUDE]]
    omega
  · rw [show ((2 : ℤ) ^ 23 - 1 : ℤ) = 8388607 from by norm_num]
    omega

/-- C4 amended: the configured invocation satisfies the period arithmetic
`1920 * 300 / 192000 = 3`, its first sample is exactly 0, and the ceiling
`AMPLITUDE` is strictly below the 24-bit maximum; the per-sample magnitude
bound however holds only on the initial indices whose angle stays below 1
(`i ≤ 101`). -/
theorem c4_amplitude_bound_small_angles (i : ℕ) (hi : i ≤ 101) :
    (TABLE_SIZE : ℚ) * FREQUENCY / SAMPLE_RATE = 3 ∧
    sineSample 0 = 0 ∧
    AMPLITUDE < 2 ^ 23 ∧
    |sineSample i| ≤ AMPLITUDE := by
  have hA : (0 : ℚ) ≤ (AMPLITUDE : ℚ) := by norm_num [AMPLITUDE]
  have hc := amplitude_omega_nonneg
  refine ⟨by norm_num [TABLE_SIZE, FREQUENCY, SAMPLE_RATE], ?_, by decide, ?_⟩
  · have h := sineSample_eq_floor (i := 0) (by norm_num)
    rw [h]
    norm_num
  · have hi' : (i : ℚ) ≤ 101 := by exact_mod_cast hi
    have hfl := sineSample_eq_floor (le_trans hi (by norm_num))
    have hnn : (0 : ℚ) ≤ (AMPLITUDE : ℚ) * (omega0 * i) := by
      have hprod : (AMPLITUDE : ℚ) * (omega0 * i) = (AMPLITUDE : ℚ) * omega0 * i := by ring
      rw [hprod]
      positivity
    have h0 : 0 ≤ sineSample i := by
      rw [hfl]
      exact Int.floor_nonneg.mpr hnn
    have hup : sineSample i < AMPLITUDE + 1 := by
      rw [hfl]
      apply Int.floor_lt.mpr
      have hstep : (AMPLITUDE : ℚ) * (omega0 * i) ≤ (AMPLITUDE : ℚ) * omega0 * 101 := by
        have hmono := mul_le_mul_of_nonneg_left hi' hc
        linarith [hmono]
      refine lt_of_le_of_lt hstep ?_
      push_cast
      norm_num [AMPLITUDE, omega0, PI, FREQUENCY, SAMPLE_RATE]
    rw [abs_of_nonneg h0]
    omega

/-- C4 witness: the amended bound instantiated at index 50. -/
theorem c4_amplitude_bound_small_angles_witness :
    (50 ≤ 101) ∧
    ((TABLE_SIZE : ℚ) * FREQUENCY / SAMPLE_RATE = 3 ∧
      sineSample 0 = 0 ∧
      AMPLITUDE < 2 ^ 23 ∧
      |sineSample 50| ≤ AMPLITUDE) :=
  ⟨by norm_num, c4_amplitude_bound_small_angles 50 (by norm_num)⟩

/-- C5 counterexample: the divisor computation does not reject an
out-of-range result: on the below-unity divisor `0.5` it silently returns
the pair `(0, 128)` (integer part 0 < 1) instead of failing; no error path
exists in `split_float` at all. -/
theorem c5_below_unity_not_rejected :
    split_float (1 / 2) = (0, 128) ∧ (split_float (1 / 2)).1 < 1 := by
  have h : split_float (1 / 2) = (0, 128) := by
    apply split_float_eq <;> norm_num
  exact ⟨h, by rw [h]; norm_num⟩

/-- C5 amended: `split_float` performs no validation and always returns a
truncated pair; for the two divisors actually configured in `main` the
integer parts happen to lie in the representable range (`325` and `5`,
both at least 1 and below `2 ^ 16`). -/
theorem c5_configured_divisors_in_range :
    split_float lrck_div_val = (325, 133) ∧
    split_float bck_data_div_val = (5, 22) ∧
    1 ≤ (split_float lrck_div_val).1 ∧ (split_float lrck_div_val).1 < 65536 ∧
    1 ≤ (split_float bck_data_div_val).1 ∧ (split_float bck_data_div_val).1 < 65536 := by
  have h1 : split_float lrck_div_val = (325, 133) := by
    apply split_float_eq <;>
      norm_num [lrck_div_val, lrck_div, BASE_CLOCK, LRCK_PIO_CYCLES_PER,
        target_lrck_freq, freqPair]
  have h2 : split_float bck_data_div_val = (5, 22) := by
    apply split_float_eq <;>
      norm_num [bck_data_div_val, bck_data_div, BASE_CLOCK, CK_PIO_CYCLES_PER,
        target_lrck_freq, freqPair]
  refine ⟨h1, h2, ?_, ?_, ?_, ?_⟩ <;> simp only [h1, h2] <;> norm_num

/-- C6: for every supported sample-rate variant, both fixed-point divisors
(the word-clock divisor derived with 2 cycles per transition and the
data/bit-clock divisor derived with 4) approximate the true real-valued
divisor to within `1/256`. -/
theorem c6_divisor_error_lt :
    ∀ sf : SampleFrequency,
      divisorError (lrck_div (freqPair sf).1) < 1 / 256 ∧
      divisorError (bck_data_div (freqPair sf).2) < 1 / 256 := by
  intro sf
  cases sf <;>
    exact ⟨divisorError_lt
        (by norm_num [lrck_div, BASE_CLOCK, LRCK_PIO_CYCLES_PER, freqPair])
        (by norm_num [lrck_div, BASE_CLOCK, LRCK_PIO_CYCLES_PER, freqPair]),
      divisorError_lt
        (by norm_num [bck_data_div, BASE_CLOCK, CK_PIO_CYCLES_PER, freqPair])
        (by norm_num [bck_data_div, BASE_CLOCK, CK_PIO_CYCLES_PER, freqPair])⟩

/-- C7 counterexample: the first table entry binds word clock 32000 Hz to
bit clock 1024000 Hz, and 1024000 is not 64 times 32000. -/
theorem c7_ratio_not_64 :
    freqPair SampleFrequency.Freq32khz = (32000, 1024000) ∧
    (freqPair SampleFrequency.Freq32khz).2 ≠
      64 * (freqPair SampleFrequency.Freq32khz).1 := by
  constructor
  · show ((32000 : ℚ), (1.024e6 : ℚ)) = (32000, 1024000)
    norm_num
  · show (1.024e6 : ℚ) ≠ 64 * 32000
    norm_num

/-- C7 amended: the two divisors are derived with the program-specific
constants (4 cycles per transition for the data/bit-clock program, 2 for
the word-clock program), the six `(word-clock, bit-clock)` pairs match the
listed table exactly, and every entry's bit clock is exactly 32 (not 64)
times its word clock. -/
theorem c7_table_is_32x :
    CK_PIO_CYCLES_PER = 4 ∧ LRCK_PIO_CYCLES_PER = 2 ∧
    (∀ f : ℚ, bck_data_div f = (BASE_CLOCK / CK_PIO_CYCLES_PER) / f) ∧
    (∀ f : ℚ, lrck_div f = (BASE_CLOCK / LRCK_PIO_CYCLES_PER) / f) ∧
    (∀ sf : SampleFrequency, (freqPair sf).2 = 32 * (freqPair sf).1) ∧
    freqPair .Freq32khz = (32000, 1024000) ∧
    freqPair .Freq44_1khz = (44100, 1411200) ∧
    freqPair .Freq48khz = (48000, 1536000) ∧
    freqPair .Freq96khz = (96000, 3072000) ∧
    freqPair .Freq192khz = (192000, 6144000) ∧
    freqPair .Freq384khz = (384000, 12288000) := by
  refine ⟨rfl, rfl, fun f => rfl, fun f => rfl, ?_, ?_, ?_, ?_, ?_, ?_, ?_⟩
  · intro sf
    cases sf <;> norm_num [freqPair]
  all_goals (simp only [freqPair]; norm_num)

/-- C8: along the modelled startup sequence of `main` (configure `sm0`,
configure `sm1`, then the single joint `sync().start()`), every reachable
state has the two state machines either both stopped or both running, and
they only run once both have been configured with their divisors. -/
theorem c8_joint_start_phase_lock :
    ∀ s ∈ startupTrace,
      s.sm0_running = s.sm1_running ∧
      (s.sm0_running = true → s.sm0_configured = true ∧ s.sm1_configured = true) := by
  decide

/-- C8 witness: the invariant instantiated at the final state of the
startup trace. -/
theorem c8_joint_start_phase_lock_witness :
    applyOp (applyOp (applyOp initPioState .configSm0) .configSm1) .jointStart ∈
        startupTrace ∧
      ((applyOp (applyOp (applyOp initPioState .configSm0) .configSm1)
            .jointStart).sm0_running =
          (applyOp (applyOp (applyOp initPioState .configSm0) .configSm1)
            .jointStart).sm1_running ∧
        ((applyOp (applyOp (applyOp initPioState .configSm0) .configSm1)
              .jointStart).sm0_running = true →
          (applyOp (applyOp (applyOp initPioState .configSm0) .configSm1)
              .jointStart).sm0_configured = true ∧
            (applyOp (applyOp (applyOp initPioState .configSm0) .configSm1)
              .jointStart).sm1_configured = true)) :=
  ⟨by decide, c8_joint_start_phase_lock _ (by decide)⟩

/-- C9: the streaming loop, modelled as a total step function over any
FIFO-full schedule, writes exactly the cyclic table sequence: after any
number of iterations the words written so far are
`table[0 % N], table[1 % N], ...` in order (no drop, no reorder), a
full FIFO only stutters the index, and the table fed to the loop has the
configured `TABLE_SIZE` entries. -/
theorem c9_stream_order_preserved (table : List ℕ) (sched : ℕ → Bool) (n : ℕ) :
    streamWrites table sched n =
      (List.range (streamIdx sched n)).map (fun k => table.getD (k % table.length) 0) ∧
    streamIdx sched (n + 1) = streamIdx sched n + (if sched n then 0 else 1) ∧
    generate_sine_wave.length = TABLE_SIZE := by
  refine ⟨?_, rfl, by simp [generate_sine_wave]⟩
  induction n with
  | zero => simp [streamWrites, streamIdx]
  | succ n ih =>
    by_cases h : sched n
    · simp [streamWrites, streamIdx, h, ih]
    · simp [streamWrites, streamIdx, h, ih, List.range_succ]

/-- C10: on the little-endian target, `cast_to_u32_as_i32` is the identity
on the underlying 32-bit pattern: for every integer sample and both values
of `is_24bit` it returns exactly the `u32` reinterpretation of its input. -/
theorem c10_cast_identity (num : ℤ) (b : Bool) :
    cast_to_u32_as_i32 num b = u32ofI32 num := by
  have hu : u32ofI32 num < 4294967296 := u32ofI32_lt num
  have hB : ∀ i, leByte num i = u32ofI32 num / 2 ^ (8 * i) % 256 := fun i => by
    simp [leByte, Nat.shiftRight_eq_div_pow]
  have h0 : leByte num 0 = u32ofI32 num % 256 := by have := hB 0; norm_num at this; exact this
  have h1 : leByte num 1 = u32ofI32 num / 256 % 256 := by
    have := hB 1; norm_num at this; exact this
  have h2 : leByte num 2 = u32ofI32 num / 65536 % 256 := by
    have := hB 2; norm_num at this; exact this
  have h3 : leByte num 3 = u32ofI32 num / 16777216 % 256 := by
    have := hB 3; norm_num at this; exact this
  have hb0 : leByte num 0 < 256 := by omega
  have hb1 : leByte num 1 < 256 := by omega
  have hb2 : leByte num 2 < 256 := by omega
  have hb3 : leByte num 3 < 256 := by omega
  have e1 : leByte num 0 ||| (leByte num 1 <<< 8) = leByte num 0 + leByte num 1 * 256 :=
    lor_shift_eq_add_of_eq (by norm_num) hb0
  have e2 : (leByte num 0 + leByte num 1 * 256) ||| (leByte num 2 <<< 16) =
      leByte num 0 + leByte num 1 * 256 + leByte num 2 * 65536 :=
    lor_shift_eq_add_of_eq (by norm_num) (by omega)
  cases b with
  | false =>
    have e3 : (leByte num 0 + leByte num 1 * 256 + leByte num 2 * 65536) |||
        (leByte num 3 <<< 24) =
        leByte num 0 + leByte num 1 * 256 + leByte num 2 * 65536 +
          leByte num 3 * 16777216 :=
      lor_shift_eq_add_of_eq (by norm_num) (by omega)
    show (List.range 4).foldl (fun acc i => acc ||| leByte num i <<< (8 * i)) 0 = u32ofI32 num
    rw [show List.range 4 = [0, 1, 2, 3] from rfl]
    simp only [List.foldl, Nat.zero_or, Nat.mul_zero, Nat.shiftLeft_zero, Nat.mul_one]
    norm_num
    rw [e1, e2, e3]
    omega
  | true =>
    have hm127 : leByte num 3 &&& 127 = leByte num 3 % 128 := by
      have h := Nat.and_pow_two_sub_one_eq_mod (leByte num 3) 7
      norm_num at h
      exact h
    have e3 : (leByte num 0 + leByte num 1 * 256 + leByte num 2 * 65536) |||
        ((leByte num 3 % 128) <<< 24) =
        leByte num 0 + leByte num 1 * 256 + leByte num 2 * 65536 +
          leByte num 3 % 128 * 16777216 :=
      lor_shift_eq_add_of_eq (by norm_num) (by omega)
    show (let temp := (List.range 3).foldl (fun acc i => acc ||| leByte num i <<< (8 * i)) 0
          let cur_byte := leByte num 3
          let msb_removed_byte := cur_byte &&& 127
          let temp2 := temp ||| (msb_removed_byte <<< 24)
          if cur_byte &&& 128 = 128 then temp2 ||| 2147483648 else temp2) = u32ofI32 num
    rw [show List.range 3 = [0, 1, 2] from rfl]
    simp only [List.foldl, Nat.zero_or, Nat.mul_zero, Nat.shiftLeft_zero, Nat.mul_one]
    norm_num
    rw [hm127, e1, e2, e3]
    by_cases hge : 128 ≤ leByte num 3
    · have hbit : (leByte num 3).testBit 7 = true := by
        rw [Nat.testBit_to_div_mod]
        norm_num
        omega
      have hcond : leByte num 3 &&& 128 = 128 := by
        have h := Nat.and_two_pow (leByte num 3) 7
        rw [hbit] at h
        norm_num at h
        exact h
      rw [if_pos hcond]
      have e4 : (leByte num 0 + leByte num 1 * 256 + leByte num 2 * 65536 +
          leByte num 3 % 128 * 16777216) ||| (1 <<< 31) =
          leByte num 0 + leByte num 1 * 256 + leByte num 2 * 65536 +
            leByte num 3 % 128 * 16777216 + 1 * 2147483648 :=
        lor_shift_eq_add_of_eq (by norm_num) (by omega)
      rw [show (2147483648 : ℕ) = 1 <<< 31 from rfl, e4]
      omega
    · have hbit : (leByte num 3).testBit 7 = false := by
        rw [Nat.testBit_to_div_mod]
        norm_num
        omega
      have hcond : leByte num 3 &&& 128 = 0 := by
        have h := Nat.and_two_pow (leByte num 3) 7
        rw [hbit] at h
        norm_num at h
        exact h
      rw [hcond, if_neg (by norm_num)]
      omega
